import Mathlib

/-!
# Verification of the elevate2024 high-score server (`srv.go`)

A shallow embedding of the core of `srv.go`: the token codec
(HMAC-SHA256 over the little-endian start time, base64-encoded), the
submission validator (`addScore`), the score store
(`truncateAndGetScores`, `resetScore`) and the token issuer
(`getToken`).

Modelling conventions:
* Go byte slices are `List Nat` with every element `< 256`.
* Go `int64` / `int` are `Int` (conversion to `uint64` is an explicit
  `% 2^64`).
* Go `float64` values (`Score.Elapsed`, `wallClockElapsed`) are `ℚ`:
  every comparison the server performs involves values that are exact
  in binary floating point for all realistic magnitudes, so rational
  comparison coincides with the `float64` comparison the code runs.
* Go strings are Lean `String`; Go `len(s)` on a string counts UTF-8
  bytes, which is `String.utf8ByteSize`.
* `slices.SortStableFunc` is modelled by `List.mergeSort` with the
  boolean relation `scoreCmp a b ≤ 0`: a stable sort under a total,
  transitive comparator has a unique result, so any stable sort models
  it faithfully.
* The HTTP layer is modelled by the decoded request body
  (`Option Score`: `none` is an undecodable JSON body) and a `Status`
  result; `log.Printf` in the elapsed-time branch is modelled by a
  `loggedAnomaly` flag.
-/

namespace Elevate

/-! ## Bytes and 32-bit words -/

/-- Truncation to a 32-bit word. -/
def w32 (n : Nat) : Nat := n % 4294967296

/-- Right rotation of a 32-bit word (`x` is assumed `< 2^32`). -/
def rotr (n x : Nat) : Nat := w32 ((x >>> n) ||| (x <<< (32 - n)))

/-! ## SHA-256 (crypto/sha256)

A direct transcription of FIPS 180-4, which is what Go's
`crypto/sha256` implements. Bytes are `Nat`s below 256; words are
`Nat`s below 2^32, truncated by `w32` after every addition. -/

def shaCh (x y z : Nat) : Nat := (x &&& y) ^^^ ((x ^^^ 4294967295) &&& z)

def shaMaj (x y z : Nat) : Nat := (x &&& y) ^^^ (x &&& z) ^^^ (y &&& z)

def bigSigma0 (x : Nat) : Nat := rotr 2 x ^^^ rotr 13 x ^^^ rotr 22 x

def bigSigma1 (x : Nat) : Nat := rotr 6 x ^^^ rotr 11 x ^^^ rotr 25 x

def smallSigma0 (x : Nat) : Nat := rotr 7 x ^^^ rotr 18 x ^^^ (x >>> 3)

def smallSigma1 (x : Nat) : Nat := rotr 17 x ^^^ rotr 19 x ^^^ (x >>> 10)

/-- The 64 SHA-256 round constants (FIPS 180-4 section 4.2.2, in
decimal). -/
def shaK : List Nat :=
  [1116352408, 1899447441, 3049323471, 3921009573, 961987163, 1508970993,
   2453635748, 2870763221, 3624381080, 310598401, 607225278, 1426881987,
   1925078388, 2162078206, 2614888103, 3248222580, 3835390401, 4022224774,
   264347078, 604807628, 770255983, 1249150122, 1555081692, 1996064986,
   2554220882, 2821834349, 2952996808, 3210313671, 3336571891, 3584528711,
   113926993, 338241895, 666307205, 773529912, 1294757372, 1396182291,
   1695183700, 1986661051, 2177026350, 2456956037, 2730485921, 2820302411,
   3259730800, 3345764771, 3516065817, 3600352804, 4094571909, 275423344,
   430227734, 506948616, 659060556, 883997877, 958139571, 1322822218,
   1537002063, 1747873779, 1955562222, 2024104815, 2227730452, 2361852424,
   2428436474, 2756734187, 3204031479, 3329325298]

/-- The 8 SHA-256 initial hash values (FIPS 180-4 section 5.3.3, in
decimal). -/
def shaH0 : List Nat :=
  [1779033703, 3144134277, 1013904242, 2773480762,
   1359893119, 2600822924, 528734635, 1541459225]

/-- Big-endian 4-byte encoding of a 32-bit word. -/
def encodeBE32 (n : Nat) : List Nat :=
  [(n >>> 24) % 256, (n >>> 16) % 256, (n >>> 8) % 256, n % 256]

/-- Big-endian 8-byte encoding of a 64-bit length. -/
def encodeBE64 (n : Nat) : List Nat :=
  [(n >>> 56) % 256, (n >>> 48) % 256, (n >>> 40) % 256, (n >>> 32) % 256,
   (n >>> 24) % 256, (n >>> 16) % 256, (n >>> 8) % 256, n % 256]

/-- SHA-256 padding: append `0x80`, zeros to 56 mod 64, then the
bit length as 8 big-endian bytes. -/
def shaPad (msg : List Nat) : List Nat :=
  msg ++ [128] ++ List.replicate ((119 - msg.length % 64) % 64) 0 ++ encodeBE64 (msg.length * 8)

/-- Split a byte string into 64-byte blocks, with explicit fuel so the
recursion is structural (the kernel can then evaluate it); any fuel at
least the list length gives the true chunking. -/
def chunks64Fuel : Nat → List Nat → List (List Nat)
  | 0, _ => []
  | _, [] => []
  | fuel + 1, b :: bs => ((b :: bs).take 64) :: chunks64Fuel fuel ((b :: bs).drop 64)

/-- Split a byte string into 64-byte blocks. -/
def chunks64 (l : List Nat) : List (List Nat) := chunks64Fuel l.length l

/-- The 16 big-endian 32-bit words of one 64-byte block. -/
def blockWords : List Nat → List Nat
  | b0 :: b1 :: b2 :: b3 :: rest => (b0 <<< 24 ||| b1 <<< 16 ||| b2 <<< 8 ||| b3) :: blockWords rest
  | _ => []

/-- Extend the 16-word message schedule by `n` further words. -/
def extendSchedule (ws : List Nat) : Nat → List Nat
  | 0 => ws
  | n + 1 =>
    let t := ws.length
    let w := w32 (smallSigma1 (ws.getD (t - 2) 0) + ws.getD (t - 7) 0 +
                  smallSigma0 (ws.getD (t - 15) 0) + ws.getD (t - 16) 0)
    extendSchedule (ws ++ [w]) n

/-- One SHA-256 compression round on the 8-word state. -/
def shaRound (st : List Nat) (wk : Nat × Nat) : List Nat :=
  match st with
  | [a, b, c, d, e, f, g, h] =>
    let t1 := w32 (h + bigSigma1 e + shaCh e f g + wk.2 + wk.1)
    let t2 := w32 (bigSigma0 a + shaMaj a b c)
    [w32 (t1 + t2), a, b, c, w32 (d + t1), e, f, g]
  | st => st

/-- Compress one 64-byte block into the running 8-word hash state. -/
def compressBlock (hs : List Nat) (block : List Nat) : List Nat :=
  let ws := extendSchedule (blockWords block) 48
  let final := (ws.zip shaK).foldl shaRound hs
  (hs.zip final).map fun p => w32 (p.1 + p.2)

/-- SHA-256 of a byte string, as 32 bytes. -/
def sha256 (msg : List Nat) : List Nat :=
  (((chunks64 (shaPad msg)).foldl compressBlock shaH0).map encodeBE32).flatten

/-! ## HMAC-SHA256 (crypto/hmac) -/

/-- HMAC-SHA256 (RFC 2104): block size 64; the server's key is 16
bytes, so only the zero-padding branch is ever taken. -/
def hmacSha256 (key msg : List Nat) : List Nat :=
  let k0 := if 64 < key.length then sha256 key else key
  let kp := k0 ++ List.replicate (64 - k0.length) 0
  sha256 ((kp.map fun b => b ^^^ 0x5c) ++ sha256 ((kp.map fun b => b ^^^ 0x36) ++ msg))

/-! ## Base64, standard encoding (encoding/base64)

Go's `base64.StdEncoding`: the RFC 4648 alphabet with `=` padding.
`EncodeToString` emits 4 characters per 3-byte group.  `DecodeString`
ignores `\r` and `\n`, consumes 4-character quantums, allows `=`
padding only in the final quantum, rejects any other character outside
the alphabet and any trailing partial quantum, and does not reject
non-zero trailing bits (it is not the strict decoder). -/

/-- The standard base64 alphabet. -/
def base64Alphabet : List Char :=
  "ABCDEFGHIJKLMNOPQRSTUVWXYZabcdefghijklmnopqrstuvwxyz0123456789+/".toList

/-- The character for a 6-bit value. -/
def encodeB64Char (n : Nat) : Char := base64Alphabet.getD n 'A'

/-- The 6-bit value of an alphabet character, `none` outside the alphabet. -/
def decodeB64Char (c : Char) : Option Nat := base64Alphabet.findIdx? (· = c)

/-- `base64.StdEncoding.EncodeToString`, 3 input bytes per 4 output
characters, `=`-padded. -/
def base64EncodeChars : List Nat → List Char
  | b0 :: b1 :: b2 :: rest =>
    let n := b0 * 65536 + b1 * 256 + b2
    encodeB64Char (n / 262144) :: encodeB64Char (n / 4096 % 64) ::
      encodeB64Char (n / 64 % 64) :: encodeB64Char (n % 64) :: base64EncodeChars rest
  | [b0, b1] =>
    let n := b0 * 65536 + b1 * 256
    [encodeB64Char (n / 262144), encodeB64Char (n / 4096 % 64), encodeB64Char (n / 64 % 64), '=']
  | [b0] =>
    let n := b0 * 65536
    [encodeB64Char (n / 262144), encodeB64Char (n / 4096 % 64), '=', '=']
  | [] => []

def base64Encode (bs : List Nat) : String := String.mk (base64EncodeChars bs)

/-- Decode a stream of 4-character quantums; `=` padding is legal only
at the end of the final quantum. -/
def base64DecodeChars : List Char → Option (List Nat)
  | [] => some []
  | c0 :: c1 :: c2 :: c3 :: rest =>
    match decodeB64Char c0, decodeB64Char c1 with
    | some v0, some v1 =>
      if c2 = '=' then
        if c3 = '=' ∧ rest = [] then some [v0 * 4 + v1 / 16] else none
      else
        match decodeB64Char c2 with
        | some v2 =>
          if c3 = '=' then
            if rest = [] then some [v0 * 4 + v1 / 16, v1 % 16 * 16 + v2 / 4] else none
          else
            match decodeB64Char c3 with
            | some v3 =>
              (base64DecodeChars rest).map fun bs =>
                let n := v0 * 262144 + v1 * 4096 + v2 * 64 + v3
                n / 65536 :: n / 256 % 256 :: n % 256 :: bs
            | none => none
        | none => none
    | _, _ => none
  | _ => none

/-- `base64.StdEncoding.DecodeString`: drop newline characters, then
decode quantums; `none` is Go's `CorruptInputError`. -/
def base64Decode (s : String) : Option (List Nat) :=
  base64DecodeChars (s.toList.filter fun c => !(c = '\r' || c = '\n'))

/-! ## Data model (srv.go lines 26–53)

`Token` and `Score` mirror the Go structs.  `NUM_SCORES` is the
truncation bound passed by the streaming handler. -/

def THRESHOLD : Int := 5

def NUM_SCORES : Int := 20

structure Token where
  start : Int
  hmac : String
deriving DecidableEq, Repr

/-- The zero value `Token{}` that `addScore` stores. -/
def emptyToken : Token := { start := 0, hmac := "" }

structure Score where
  playerName : String
  elapsed : ℚ
  remainingHealth : Int
  token : Token
deriving DecidableEq, Repr

/-- `HighScoreServer` minus the mutex (operations are modelled as
whole atomic steps, which is what the single exclusive lock gives the
Go code). -/
structure ServerState where
  scores : List Score
  hmacKey : List Nat
  adminPassword : String
deriving DecidableEq, Repr

/-- `cmp.Compare`: -1, 0 or 1.  (`ℚ` has no NaN, so the float NaN
branch of the Go generic never applies in the model.) -/
def cmpCompare {α : Type} [LinearOrder α] (x y : α) : Int :=
  if x < y then -1 else if y < x then 1 else 0

/-- Two-argument `cmp.Or`: the first nonzero argument, else 0. -/
def cmpOr (a b : Int) : Int := if a ≠ 0 then a else b

/-- `scoreCmp` (srv.go:41–46). -/
def scoreCmp (a b : Score) : Int :=
  cmpOr (cmpCompare a.remainingHealth b.remainingHealth) (-cmpCompare a.elapsed b.elapsed)

/-- The boolean "sorts no later than" relation induced by `scoreCmp`,
used to model `slices.SortStableFunc(s.scores, scoreCmp)` as the
stable `List.mergeSort`. -/
def scoreLe (a b : Score) : Bool := scoreCmp a b ≤ 0

/-- HTTP statuses the handlers write. -/
inductive Status where
  | s200
  | s201
  | s400
  | s403
deriving DecidableEq, Repr

/-! ## Score store and handlers -/

/-- `truncateAndGetScores` (srv.go:55–67): stably sort by `scoreCmp`,
clamp `n` to the length, truncate in place, return the truncated
collection.  `none` models the panic of `s.scores[:t]` when `t < 0`
(which happens exactly when `n < 0`). -/
def truncateAndGetScores (s : ServerState) (n : Int) : Option (List Score × ServerState) :=
  let sorted := s.scores.mergeSort scoreLe
  let t : Int := if (sorted.length : Int) < n then (sorted.length : Int) else n
  if 0 ≤ t then
    let truncated := sorted.take t.toNat
    some (truncated, { s with scores := truncated })
  else
    none

/-- `uint64(t)` for an `int64` value: two's-complement reduction. -/
def uint64OfInt (t : Int) : Nat := (t % (18446744073709551616 : Int)).toNat

/-- `binary.LittleEndian.PutUint64`: the 8 little-endian bytes. -/
def encode64LE (t : Int) : List Nat :=
  (List.range 8).map fun i => (uint64OfInt t >>> (8 * i)) % 256

/-- `hmac.Equal`: constant-time comparison, semantically byte-string
equality. -/
def hmacEqual (a b : List Nat) : Bool := a == b

/-- The verification the submission validator performs on a token
(srv.go:77–93): recompute `HMAC-SHA256(key, encode64LE(start))`,
base64-decode the presented `hmac` field, compare.  This is the token
codec's `Verify`. -/
def verifyToken (key : List Nat) (tok : Token) : Bool :=
  match base64Decode tok.hmac with
  | none => false
  | some signature => hmacEqual signature (hmacSha256 key (encode64LE tok.start))

/-- Result of a `POST /record`: status, post-state, and whether the
elapsed-time anomaly log line was emitted. -/
structure RecordResult where
  status : Status
  state : ServerState
  loggedAnomaly : Bool
deriving DecidableEq, Repr

/-- `addScore` (srv.go:69–126).  `body` is the JSON-decoded request
body (`none` when `Decode` fails); `now` is `time.Now().Unix()`. -/
def addScore (s : ServerState) (body : Option Score) (now : Int) : RecordResult :=
  match body with
  | none => ⟨.s400, s, false⟩
  | some newScore =>
    let b := encode64LE newScore.token.start
    let result := hmacSha256 s.hmacKey b
    match base64Decode newScore.token.hmac with
    | none => ⟨.s400, s, false⟩
    | some signature =>
      if ¬ hmacEqual signature result then ⟨.s400, s, false⟩
      else if newScore.remainingHealth < 0 then ⟨.s400, s, false⟩
      else if newScore.playerName.utf8ByteSize < 1 ∨ 3 < newScore.playerName.utf8ByteSize then
        ⟨.s400, s, false⟩
      else
        let wallClockElapsed : ℚ := ((now - newScore.token.start : Int) : ℚ)
        if wallClockElapsed < newScore.elapsed then ⟨.s400, s, true⟩
        else
          ⟨.s201, { s with scores := s.scores ++ [{ newScore with token := emptyToken }] }, false⟩

/-- `getToken` (srv.go:128–147): the token written in the 201 response
of `POST /start`. -/
def getToken (key : List Nat) (now : Int) : Token :=
  { start := now, hmac := base64Encode (hmacSha256 key (encode64LE now)) }

/-- `resetScore` (srv.go:149–168), given the parsed `pw` form value. -/
def resetScore (s : ServerState) (pw : String) : Status × ServerState :=
  if pw = s.adminPassword then (.s200, { s with scores := [] })
  else (.s403, s)

/-- One tick of the streaming handler (srv.go:192). -/
def streamTick (s : ServerState) : Option (List Score × ServerState) :=
  truncateAndGetScores s NUM_SCORES

/-- The server state `main` starts with (srv.go:219–223): no scores;
the key and password come from startup input. -/
def initialState (key : List Nat) (pw : String) : ServerState :=
  { scores := [], hmacKey := key, adminPassword := pw }

/-! ## Supporting lemmas: byte bounds and the base64 round trip -/

theorem encodeBE32_lt (n : Nat) : ∀ b ∈ encodeBE32 n, b < 256 := by
  intro b hb
  simp only [encodeBE32, List.mem_cons, List.not_mem_nil, or_false] at hb
  rcases hb with h | h | h | h <;> subst h <;> exact Nat.mod_lt _ (by norm_num)

theorem sha256_lt (msg : List Nat) : ∀ b ∈ sha256 msg, b < 256 := by
  intro b hb
  simp only [sha256, List.mem_flatten, List.mem_map] at hb
  obtain ⟨l, ⟨w, _, rfl⟩, hbl⟩ := hb
  exact encodeBE32_lt w b hbl

theorem hmacSha256_lt (key msg : List Nat) : ∀ b ∈ hmacSha256 key msg, b < 256 := by
  intro b hb
  exact sha256_lt _ b hb

theorem decodeB64Char_encodeB64Char {v : Nat} (h : v < 64) :
    decodeB64Char (encodeB64Char v) = some v := by
  have key : ∀ w : Fin 64, decodeB64Char (encodeB64Char w.val) = some w.val := by decide
  exact key ⟨v, h⟩

theorem encodeB64Char_ne_pad {v : Nat} (h : v < 64) : encodeB64Char v ≠ '=' := by
  have key : ∀ w : Fin 64, encodeB64Char w.val ≠ '=' := by decide
  exact key ⟨v, h⟩

theorem encodeB64Char_not_newline {v : Nat} (h : v < 64) :
    (!(encodeB64Char v = '\r' || encodeB64Char v = '\n')) = true := by
  have key : ∀ w : Fin 64, (!(encodeB64Char w.val = '\r' || encodeB64Char w.val = '\n')) = true := by
    decide
  exact key ⟨v, h⟩

/-- The encoder never emits a newline, so the decoder's newline filter
leaves its output unchanged. -/
theorem filter_newline_encodeChars : ∀ (bs : List Nat), (∀ b ∈ bs, b < 256) →
    (base64EncodeChars bs).filter (fun c => !(c = '\r' || c = '\n')) = base64EncodeChars bs
  | [], _ => rfl
  | [b0], h => by
    have h0 : b0 < 256 := h b0 (by simp)
    simp only [base64EncodeChars, List.filter]
    rw [encodeB64Char_not_newline (by omega), encodeB64Char_not_newline (by omega)]
    rfl
  | [b0, b1], h => by
    have h0 : b0 < 256 := h b0 (by simp)
    have h1 : b1 < 256 := h b1 (by simp)
    simp only [base64EncodeChars, List.filter]
    rw [encodeB64Char_not_newline (by omega), encodeB64Char_not_newline (by omega),
      encodeB64Char_not_newline (by omega)]
    rfl
  | b0 :: b1 :: b2 :: rest, h => by
    have h0 : b0 < 256 := h b0 (by simp)
    have h1 : b1 < 256 := h b1 (by simp)
    have h2 : b2 < 256 := h b2 (by simp)
    have ih := filter_newline_encodeChars rest (fun b hb => h b (by simp [hb]))
    simp only [base64EncodeChars, List.filter]
    rw [encodeB64Char_not_newline (by omega), encodeB64Char_not_newline (by omega),
      encodeB64Char_not_newline (by omega), encodeB64Char_not_newline (by omega)]
    simpa using ih

/-- Decoding inverts encoding on genuine byte strings. -/
theorem base64DecodeChars_encodeChars : ∀ (bs : List Nat), (∀ b ∈ bs, b < 256) →
    base64DecodeChars (base64EncodeChars bs) = some bs
  | [], _ => rfl
  | [b0], h => by
    have h0 : b0 < 256 := h b0 (by simp)
    simp only [base64EncodeChars, base64DecodeChars]
    rw [decodeB64Char_encodeB64Char (by omega), decodeB64Char_encodeB64Char (by omega)]
    simp only [if_pos rfl, and_self, reduceIte]
    congr 1
    congr 1
    omega
  | [b0, b1], h => by
    have h0 : b0 < 256 := h b0 (by simp)
    have h1 : b1 < 256 := h b1 (by simp)
    have e0 := decodeB64Char_encodeB64Char (show (b0 * 65536 + b1 * 256) / 262144 < 64 by omega)
    have e1 := decodeB64Char_encodeB64Char (show (b0 * 65536 + b1 * 256) / 4096 % 64 < 64 by omega)
    have e2 := decodeB64Char_encodeB64Char (show (b0 * 65536 + b1 * 256) / 64 % 64 < 64 by omega)
    have p2 := encodeB64Char_ne_pad (show (b0 * 65536 + b1 * 256) / 64 % 64 < 64 by omega)
    simp only [base64EncodeChars, base64DecodeChars, e0, e1, if_neg p2, e2]
    simp only [Option.some.injEq, List.cons.injEq, and_true, reduceIte]
    omega
  | b0 :: b1 :: b2 :: rest, h => by
    have h0 : b0 < 256 := h b0 (by simp)
    have h1 : b1 < 256 := h b1 (by simp)
    have h2 : b2 < 256 := h b2 (by simp)
    have ih := base64DecodeChars_encodeChars rest (fun b hb => h b (by simp [hb]))
    have e0 := decodeB64Char_encodeB64Char
      (show (b0 * 65536 + b1 * 256 + b2) / 262144 < 64 by omega)
    have e1 := decodeB64Char_encodeB64Char
      (show (b0 * 65536 + b1 * 256 + b2) / 4096 % 64 < 64 by omega)
    have e2 := decodeB64Char_encodeB64Char
      (show (b0 * 65536 + b1 * 256 + b2) / 64 % 64 < 64 by omega)
    have e3 := decodeB64Char_encodeB64Char
      (show (b0 * 65536 + b1 * 256 + b2) % 64 < 64 by omega)
    have p2 := encodeB64Char_ne_pad (show (b0 * 65536 + b1 * 256 + b2) / 64 % 64 < 64 by omega)
    have p3 := encodeB64Char_ne_pad (show (b0 * 65536 + b1 * 256 + b2) % 64 < 64 by omega)
    simp only [base64EncodeChars, base64DecodeChars, e0, e1, if_neg p2, e2, if_neg p3, e3, ih,
      Option.map_some', Option.some.injEq, List.cons.injEq]
    refine ⟨by omega, by omega, by omega, trivial⟩

theorem base64Decode_encode (bs : List Nat) (h : ∀ b ∈ bs, b < 256) :
    base64Decode (base64Encode bs) = some bs := by
  show base64DecodeChars ((base64EncodeChars bs).filter _) = some bs
  rw [filter_newline_encodeChars bs h, base64DecodeChars_encodeChars bs h]

/-! ## The ranking comparator -/

/-- What `scoreCmp` actually orders: ascending `remaining_health`,
ties broken by descending `elapsed`. -/
theorem scoreLe_iff (a b : Score) : scoreLe a b = true ↔
    a.remainingHealth < b.remainingHealth ∨
      (a.remainingHealth = b.remainingHealth ∧ b.elapsed ≤ a.elapsed) := by
  simp only [scoreLe, scoreCmp, cmpOr, cmpCompare, decide_eq_true_eq]
  rcases lt_trichotomy a.remainingHealth b.remainingHealth with h | h | h
  · rw [if_pos h, if_pos (by norm_num : (-1 : Int) ≠ 0)]
    norm_num
    exact Or.inl h
  · rw [if_neg (by omega : ¬ a.remainingHealth < b.remainingHealth),
      if_neg (by omega : ¬ b.remainingHealth < a.remainingHealth),
      if_neg (by norm_num : ¬ (0 : Int) ≠ 0)]
    rcases lt_trichotomy a.elapsed b.elapsed with h2 | h2 | h2
    · rw [if_pos h2]
      norm_num
      exact ⟨le_of_eq h.symm, fun _ => h2⟩
    · rw [if_neg (by rw [h2]; exact lt_irrefl _), if_neg (by rw [h2]; exact lt_irrefl _)]
      norm_num
      exact Or.inr ⟨h, le_of_eq h2.symm⟩
    · rw [if_neg (lt_asymm h2), if_pos h2]
      norm_num
      exact Or.inr ⟨h, le_of_lt h2⟩
  · rw [if_neg (by omega : ¬ a.remainingHealth < b.remainingHealth), if_pos h,
      if_pos (by norm_num : (1 : Int) ≠ 0)]
    norm_num
    exact ⟨le_of_lt h, fun hc => absurd hc (by omega)⟩

theorem scoreLe_total (a b : Score) : (scoreLe a b || scoreLe b a) = true := by
  rw [Bool.or_eq_true, scoreLe_iff, scoreLe_iff]
  rcases lt_trichotomy a.remainingHealth b.remainingHealth with h | h | h
  · exact Or.inl (Or.inl h)
  · rcases le_total a.elapsed b.elapsed with h2 | h2
    · exact Or.inr (Or.inr ⟨h.symm, h2⟩)
    · exact Or.inl (Or.inr ⟨h, h2⟩)
  · exact Or.inr (Or.inl h)

theorem scoreLe_trans (a b c : Score) (hab : scoreLe a b = true) (hbc : scoreLe b c = true) :
    scoreLe a c = true := by
  rw [scoreLe_iff] at hab hbc ⊢
  rcases hab with h | ⟨h, he⟩ <;> rcases hbc with h2 | ⟨h2, he2⟩
  · exact Or.inl (h.trans h2)
  · exact Or.inl (by omega)
  · exact Or.inl (by omega)
  · exact Or.inr ⟨h.trans h2, he2.trans he⟩

/-! ## Behaviour of `addScore` once the signature verifies -/

/-- After a successful signature check, `addScore` is the remaining
three-step validation pipeline. -/
theorem addScore_of_verified (s : ServerState) (sc : Score) (now : Int)
    (hsig : verifyToken s.hmacKey sc.token = true) :
    addScore s (some sc) now =
      if sc.remainingHealth < 0 then ⟨.s400, s, false⟩
      else if sc.playerName.utf8ByteSize < 1 ∨ 3 < sc.playerName.utf8ByteSize then
        ⟨.s400, s, false⟩
      else if ((now - sc.token.start : Int) : ℚ) < sc.elapsed then ⟨.s400, s, true⟩
      else ⟨.s201, { s with scores := s.scores ++ [{ sc with token := emptyToken }] }, false⟩ := by
  unfold verifyToken at hsig
  unfold addScore
  rcases hd : base64Decode sc.token.hmac with _ | sig
  · rw [hd] at hsig
    exact absurd hsig (by simp)
  · rw [hd] at hsig
    have hm : hmacEqual sig (hmacSha256 s.hmacKey (encode64LE sc.token.start)) = true := hsig
    simp [hd, hm]

/-! ## Claim theorems: the token codec -/

/-- C3: round trip — a token minted by `getToken` under any key and
any start time passes the verification that the submission validator
recomputes (`verifyToken`, the base64-decode-and-compare of
srv.go:84–93): `Verify(Issue())` holds. -/
theorem verify_issue_roundtrip (key : List Nat) (t : Int) :
    verifyToken key (getToken key t) = true := by
  unfold verifyToken getToken
  rw [base64Decode_encode _ (hmacSha256_lt key (encode64LE t))]
  simp [hmacEqual]

/-- C4: a submission whose token `hmac` is not valid base64, or whose
decoded signature differs from `HMAC-SHA256(key, encode64LE(start))`,
fails verification and is rejected with status 400 with the state
unchanged (and nothing logged). -/
theorem tampered_token_rejected (s : ServerState) (sc : Score) (now : Int)
    (h : base64Decode sc.token.hmac = none ∨
      ∃ sig, base64Decode sc.token.hmac = some sig ∧
        sig ≠ hmacSha256 s.hmacKey (encode64LE sc.token.start)) :
    verifyToken s.hmacKey sc.token = false ∧
      addScore s (some sc) now = ⟨.s400, s, false⟩ := by
  rcases h with h | ⟨sig, hsig, hne⟩
  · refine ⟨?_, ?_⟩
    · unfold verifyToken
      rw [h]
    · simp only [addScore, h]
  · refine ⟨?_, ?_⟩
    · unfold verifyToken
      rw [hsig]
      simp [hmacEqual, hne]
    · simp only [addScore, hsig]
      simp [hmacEqual, hne]

/-- Witness for C4 at a concrete input: an obviously malformed base64
signature is rejected without mutating a nonempty store. -/
theorem tampered_token_rejected_witness :
    verifyToken [7] { start := 3, hmac := "####" } = false ∧
      addScore ⟨[], [7], "pw"⟩ (some ⟨"AAA", 1, 2, { start := 3, hmac := "####" }⟩) 99 =
        ⟨.s400, ⟨[], [7], "pw"⟩, false⟩ :=
  tampered_token_rejected ⟨[], [7], "pw"⟩ ⟨"AAA", 1, 2, { start := 3, hmac := "####" }⟩ 99
    (Or.inl (by decide))

/-! ## Claim theorems: the submission validator -/

/-- C6: atomicity of rejection — `addScore` answers only 400 or 201,
and whenever it answers 400 (undecodable body or any failed validation
step) the server state is exactly the input state: no partial append. -/
theorem reject_no_mutation (s : ServerState) (body : Option Score) (now : Int) :
    ((addScore s body now).status = .s400 ∨ (addScore s body now).status = .s201) ∧
      ((addScore s body now).status = .s400 → (addScore s body now).state = s) := by
  rcases body with _ | sc
  · simp [addScore]
  · rcases hd : base64Decode sc.token.hmac with _ | sig
    · simp [addScore, hd]
    · simp only [addScore, hd]
      split_ifs <;> simp

/-- Witness for C6 at a concrete input: an undecodable body is
answered 400 and mutates nothing. -/
theorem reject_no_mutation_witness :
    ((addScore ⟨[], [7], "x"⟩ none 0).status = .s400 ∨
        (addScore ⟨[], [7], "x"⟩ none 0).status = .s201) ∧
      ((addScore ⟨[], [7], "x"⟩ none 0).status = .s400 →
        (addScore ⟨[], [7], "x"⟩ none 0).state = ⟨[], [7], "x"⟩) :=
  reject_no_mutation ⟨[], [7], "x"⟩ none 0

/-- C5: under a validly-signed token, a claimed `elapsed` strictly
above the wall-clock elapsed `now - start` is rejected with 400 — and
the anomaly is logged whenever the earlier payload checks let the
timing check run — while a claimed `elapsed` within the wall clock
passes the timing check: with the payload checks passing, the
submission is accepted with 201. -/
theorem elapsed_exceeding_wall_clock_rejected (s : ServerState) (sc : Score) (now : Int)
    (hsig : verifyToken s.hmacKey sc.token = true) :
    (((now - sc.token.start : Int) : ℚ) < sc.elapsed →
      (addScore s (some sc) now).status = .s400 ∧
        (0 ≤ sc.remainingHealth → 1 ≤ sc.playerName.utf8ByteSize →
          sc.playerName.utf8ByteSize ≤ 3 →
          (addScore s (some sc) now).loggedAnomaly = true)) ∧
    (sc.elapsed ≤ ((now - sc.token.start : Int) : ℚ) → 0 ≤ sc.remainingHealth →
      1 ≤ sc.playerName.utf8ByteSize → sc.playerName.utf8ByteSize ≤ 3 →
      (addScore s (some sc) now).status = .s201) := by
  rw [addScore_of_verified s sc now hsig]
  constructor
  · intro hlt
    constructor
    · by_cases h1 : sc.remainingHealth < 0
      · rw [if_pos h1]
      · rw [if_neg h1]
        by_cases h2 : sc.playerName.utf8ByteSize < 1 ∨ 3 < sc.playerName.utf8ByteSize
        · rw [if_pos h2]
        · rw [if_neg h2, if_pos hlt]
    · intro hh hn1 hn3
      rw [if_neg (by omega), if_neg (by omega), if_pos hlt]
  · intro hle hh hn1 hn3
    rw [if_neg (by omega), if_neg (by omega), if_neg (not_lt.mpr hle)]

/-- A concrete 16-byte key standing in for the random startup key. -/
def sampleKey : List Nat := List.replicate 16 0

set_option maxRecDepth 40000 in
/-- Witness for C5 at a concrete input: the spec's scenario — claimed
elapsed 1000000 immediately after issuance — is rejected and logged. -/
theorem elapsed_exceeding_wall_clock_rejected_witness :
    (addScore ⟨[], sampleKey, "pw"⟩
        (some ⟨"AAA", 1000000, 50, getToken sampleKey 5⟩) 5).status = .s400 ∧
      (addScore ⟨[], sampleKey, "pw"⟩
        (some ⟨"AAA", 1000000, 50, getToken sampleKey 5⟩) 5).loggedAnomaly = true := by
  have h := elapsed_exceeding_wall_clock_rejected ⟨[], sampleKey, "pw"⟩
    ⟨"AAA", 1000000, 50, getToken sampleKey 5⟩ 5 (by decide)
  exact ⟨(h.1 (by decide)).1, (h.1 (by decide)).2 (by decide) (by decide) (by decide)⟩

/-- C9: the wall-clock elapsed is a difference of whole Unix seconds,
so a submission in the same second as issuance (`start = now`) with a
truthful fractional `elapsed` strictly between 0 and 1 is compared
against a wall clock of 0 and rejected with 400 (with the anomaly
logged). -/
theorem same_second_fractional_elapsed_rejected (s : ServerState) (sc : Score) (now : Int)
    (hsig : verifyToken s.hmacKey sc.token = true)
    (hstart : sc.token.start = now)
    (hh : 0 ≤ sc.remainingHealth)
    (hn1 : 1 ≤ sc.playerName.utf8ByteSize) (hn3 : sc.playerName.utf8ByteSize ≤ 3)
    (he0 : 0 < sc.elapsed) (_he1 : sc.elapsed < 1) :
    (addScore s (some sc) now).status = .s400 ∧
      (addScore s (some sc) now).loggedAnomaly = true := by
  rw [addScore_of_verified s sc now hsig,
    if_neg (by omega), if_neg (by omega), if_pos (by rw [hstart]; simpa using he0)]
  exact ⟨rfl, rfl⟩

set_option maxRecDepth 40000 in
/-- Witness for C9 at a concrete input: a truthful elapsed of one half
second inside the issuance second is rejected. -/
theorem same_second_fractional_elapsed_rejected_witness :
    (addScore ⟨[], sampleKey, "pw"⟩
        (some ⟨"AAA", 1 / 2, 50, getToken sampleKey 5⟩) 5).status = .s400 ∧
      (addScore ⟨[], sampleKey, "pw"⟩
        (some ⟨"AAA", 1 / 2, 50, getToken sampleKey 5⟩) 5).loggedAnomaly = true :=
  same_second_fractional_elapsed_rejected ⟨[], sampleKey, "pw"⟩
    ⟨"AAA", 1 / 2, 50, getToken sampleKey 5⟩ 5 (by decide) (by decide) (by decide) (by decide)
    (by decide) (by norm_num) (by norm_num)

/-- C2 (amended): the server gates the player name on its UTF-8 byte
count, not its character count — with a valid signature, nonnegative
health and an `elapsed` within the wall clock, the submission is
accepted exactly when `1 ≤ utf8ByteSize(player_name) ≤ 3`. -/
theorem name_byte_length_gate (s : ServerState) (sc : Score) (now : Int)
    (hsig : verifyToken s.hmacKey sc.token = true)
    (hh : 0 ≤ sc.remainingHealth)
    (ht : sc.elapsed ≤ ((now - sc.token.start : Int) : ℚ)) :
    (addScore s (some sc) now).status = .s201 ↔
      1 ≤ sc.playerName.utf8ByteSize ∧ sc.playerName.utf8ByteSize ≤ 3 := by
  rw [addScore_of_verified s sc now hsig, if_neg (by omega)]
  by_cases hn : sc.playerName.utf8ByteSize < 1 ∨ 3 < sc.playerName.utf8ByteSize
  · rw [if_pos hn]
    constructor
    · intro hc
      exact absurd hc (fun hcc => Status.noConfusion hcc)
    · intro hrhs
      exact absurd hn (by omega)
  · rw [if_neg hn, if_neg (not_lt.mpr ht)]
    constructor
    · intro _
      omega
    · intro _
      rfl

set_option maxRecDepth 40000 in
/-- Witness for the amended C2 at a concrete input: the three-byte
name "AAA" is accepted. -/
theorem name_byte_length_gate_witness :
    (addScore ⟨[], sampleKey, "pw"⟩
        (some ⟨"AAA", 0, 50, getToken sampleKey 5⟩) 5).status = .s201 ↔
      1 ≤ ("AAA" : String).utf8ByteSize ∧ ("AAA" : String).utf8ByteSize ≤ 3 :=
  name_byte_length_gate ⟨[], sampleKey, "pw"⟩ ⟨"AAA", 0, 50, getToken sampleKey 5⟩ 5
    (by decide) (by decide) (by decide)

set_option maxRecDepth 40000 in
/-- C2 counterexample: the two-character name "日日" (character count 2,
inside the claimed 1–3 window) on an otherwise-valid submission —
valid signature, health 50, elapsed 0 within the wall clock — is
rejected with 400, not accepted with 201: Go's `len` counts its six
UTF-8 bytes. -/
theorem charcount_name_rejected :
    ("日日" : String).length = 2 ∧
      verifyToken sampleKey (getToken sampleKey 5) = true ∧
      (addScore ⟨[], sampleKey, "pw"⟩
        (some ⟨"日日", 0, 50, getToken sampleKey 5⟩) 5).status ≠ .s201 ∧
      (addScore ⟨[], sampleKey, "pw"⟩
        (some ⟨"日日", 0, 50, getToken sampleKey 5⟩) 5).status = .s400 := by
  refine ⟨by decide, by decide, by decide, by decide⟩

/-! ## Claim theorems: the score store -/

/-- For a nonnegative bound, `truncateAndGetScores` succeeds and both
returns and stores the first `n` elements of the stable sort. -/
theorem truncate_eq_of_nonneg (s : ServerState) (n : Int) (hn : 0 ≤ n) :
    truncateAndGetScores s n =
      some ((s.scores.mergeSort scoreLe).take n.toNat,
        { s with scores := (s.scores.mergeSort scoreLe).take n.toNat }) := by
  simp only [truncateAndGetScores, List.length_mergeSort]
  have ht0 : 0 ≤ (if (s.scores.length : Int) < n then (s.scores.length : Int) else n) := by
    split_ifs <;> omega
  rw [if_pos ht0]
  rcases lt_or_le ((s.scores.length : Int)) n with hc | hc
  · rw [if_pos hc]
    have h1 : (s.scores.mergeSort scoreLe).take ((s.scores.length : Int)).toNat =
        s.scores.mergeSort scoreLe := by
      rw [Int.toNat_natCast]
      exact List.take_of_length_le (by simp)
    have h2 : (s.scores.mergeSort scoreLe).take n.toNat = s.scores.mergeSort scoreLe :=
      List.take_of_length_le (by simp; omega)
    rw [h1, h2]
  · rw [if_neg (not_lt.mpr hc)]

/-- Once the collection is no longer than the bound, truncation
returns the whole stable sort and stores it. -/
theorem truncate_eq_of_le (s : ServerState) (n : Int)
    (hlen : (s.scores.length : Int) ≤ n) :
    truncateAndGetScores s n =
      some (s.scores.mergeSort scoreLe, { s with scores := s.scores.mergeSort scoreLe }) := by
  rw [truncate_eq_of_nonneg s n (by omega), List.take_of_length_le (by simp; omega)]

/-- C7: idempotence — when the stored collection already has length at
most `n`, `RankAndTruncate(n)` stores exactly the sequence it returns,
and an immediately repeated call returns that same sequence and leaves
the store untouched (the stable sort fixes an already-sorted list). -/
theorem rank_and_truncate_idempotent (s : ServerState) (n : Int) (r1 : List Score)
    (s1 : ServerState) (hlen : (s.scores.length : Int) ≤ n)
    (h1 : truncateAndGetScores s n = some (r1, s1)) :
    s1.scores = r1 ∧ truncateAndGetScores s1 n = some (r1, s1) := by
  rw [truncate_eq_of_le s n hlen] at h1
  obtain ⟨rfl, rfl⟩ := Prod.ext_iff.mp (Option.some.inj h1)
  refine ⟨rfl, ?_⟩
  have hsorted : (s.scores.mergeSort scoreLe).mergeSort scoreLe = s.scores.mergeSort scoreLe :=
    List.mergeSort_of_sorted (List.sorted_mergeSort scoreLe_trans scoreLe_total s.scores)
  rw [truncate_eq_of_le _ n (by simpa using hlen)]
  simp only [hsorted]

/-- Witness for C7 at a concrete input: two stored scores, bound 20. -/
theorem rank_and_truncate_idempotent_witness :
    (⟨[⟨"BBB", 10, 80, emptyToken⟩, ⟨"CCC", 5, 80, emptyToken⟩], [], "pw"⟩ :
        ServerState).scores = [⟨"BBB", 10, 80, emptyToken⟩, ⟨"CCC", 5, 80, emptyToken⟩] ∧
      truncateAndGetScores
          ⟨[⟨"BBB", 10, 80, emptyToken⟩, ⟨"CCC", 5, 80, emptyToken⟩], [], "pw"⟩ 20 =
        some ([⟨"BBB", 10, 80, emptyToken⟩, ⟨"CCC", 5, 80, emptyToken⟩],
          ⟨[⟨"BBB", 10, 80, emptyToken⟩, ⟨"CCC", 5, 80, emptyToken⟩], [], "pw"⟩) :=
  rank_and_truncate_idempotent
    ⟨[⟨"BBB", 10, 80, emptyToken⟩, ⟨"CCC", 5, 80, emptyToken⟩], [], "pw"⟩ 20
    [⟨"BBB", 10, 80, emptyToken⟩, ⟨"CCC", 5, 80, emptyToken⟩]
    ⟨[⟨"BBB", 10, 80, emptyToken⟩, ⟨"CCC", 5, 80, emptyToken⟩], [], "pw"⟩
    (by norm_num)
    (by rw [truncate_eq_of_le _ _ (by norm_num)]
        norm_num [List.mergeSort, List.merge, scoreLe, scoreCmp, cmpOr, cmpCompare])

/-- C10: for every nonnegative `n`, `truncateAndGetScores` is total
and leaves the stored collection at length exactly
`min n (previous length)`; for negative `n` the modelled slice panic
fires (`none`); the sole caller passes `NUM_SCORES = 20 ≥ 0`, so every
stream tick succeeds. -/
theorem truncate_total_and_min_length (s : ServerState) (n : Int) :
    (0 ≤ n → ∃ r s1, truncateAndGetScores s n = some (r, s1) ∧ r = s1.scores ∧
      s1.scores.length = min n.toNat s.scores.length) ∧
    (n < 0 → truncateAndGetScores s n = none) ∧
    NUM_SCORES = 20 ∧ 0 ≤ NUM_SCORES ∧
    (∀ st : ServerState, (streamTick st).isSome = true) := by
  refine ⟨?_, ?_, rfl, by norm_num [NUM_SCORES], ?_⟩
  · intro hn
    refine ⟨_, _, truncate_eq_of_nonneg s n hn, rfl, ?_⟩
    simp only [List.length_take, List.length_mergeSort]
  · intro hn
    simp only [truncateAndGetScores, List.length_mergeSort]
    rw [if_neg (by omega : ¬ (s.scores.length : Int) < n), if_neg (by omega)]
  · intro st
    rw [streamTick, truncate_eq_of_nonneg st NUM_SCORES (by norm_num [NUM_SCORES])]
    rfl

/-- Witness for C10 at a concrete input: three stored scores, bound 2. -/
theorem truncate_total_and_min_length_witness :
    ((0 : Int) ≤ 2 → ∃ r s1, truncateAndGetScores
        ⟨[⟨"A", 1, 7, emptyToken⟩, ⟨"B", 2, 9, emptyToken⟩, ⟨"C", 3, 8, emptyToken⟩], [], "x"⟩ 2 =
          some (r, s1) ∧ r = s1.scores ∧
        s1.scores.length = min (Int.toNat 2)
          (⟨[⟨"A", 1, 7, emptyToken⟩, ⟨"B", 2, 9, emptyToken⟩, ⟨"C", 3, 8, emptyToken⟩], [], "x"⟩ :
              ServerState).scores.length) ∧
    ((2 : Int) < 0 → truncateAndGetScores
        ⟨[⟨"A", 1, 7, emptyToken⟩, ⟨"B", 2, 9, emptyToken⟩, ⟨"C", 3, 8, emptyToken⟩], [], "x"⟩ 2 =
          none) ∧
    NUM_SCORES = 20 ∧ 0 ≤ NUM_SCORES ∧
    (∀ st : ServerState, (streamTick st).isSome = true) :=
  truncate_total_and_min_length
    ⟨[⟨"A", 1, 7, emptyToken⟩, ⟨"B", 2, 9, emptyToken⟩, ⟨"C", 3, 8, emptyToken⟩], [], "x"⟩ 2

/-! ## Claim theorems: the empty-token invariant -/

/-- Server states reachable from `main`'s initial state through any
sequence of handler invocations. -/
inductive Reachable : ServerState → Prop
  | init (key : List Nat) (pw : String) : Reachable (initialState key pw)
  | record (s : ServerState) (body : Option Score) (now : Int) :
      Reachable s → Reachable (addScore s body now).state
  | truncate (s : ServerState) (n : Int) (r : List Score × ServerState) :
      Reachable s → truncateAndGetScores s n = some r → Reachable r.2
  | reset (s : ServerState) (pw : String) :
      Reachable s → Reachable (resetScore s pw).2

/-- `addScore` either keeps the collection or appends one score whose
token has been zeroed. -/
theorem addScore_state_cases (s : ServerState) (body : Option Score) (now : Int) :
    (addScore s body now).state = s ∨ ∃ sc : Score,
      (addScore s body now).state =
        { s with scores := s.scores ++ [{ sc with token := emptyToken }] } := by
  rcases body with _ | sc
  · exact Or.inl rfl
  · rcases hd : base64Decode sc.token.hmac with _ | sig
    · left
      simp [addScore, hd]
    · simp only [addScore, hd]
      split_ifs <;> first | exact Or.inl rfl | exact Or.inr ⟨sc, rfl⟩

/-- Truncation only keeps scores that were already stored. -/
theorem truncate_scores_subset (s : ServerState) (n : Int) (r : List Score × ServerState)
    (h : truncateAndGetScores s n = some r) : ∀ x ∈ r.2.scores, x ∈ s.scores := by
  simp only [truncateAndGetScores] at h
  split at h <;> split at h <;>
    first
      | (obtain rfl := Option.some.inj h
         intro x hx
         exact (List.mem_mergeSort).mp (List.take_subset _ _ hx))
      | exact absurd h (by simp)

/-- C8: invariant — every score held in the store of any reachable
server state carries the empty (zero-valued) token: admission zeroes
the submitted token before appending, and no operation ever stores
non-empty token material. -/
theorem stored_scores_have_empty_token (s : ServerState) (sc : Score)
    (hs : Reachable s) (hsc : sc ∈ s.scores) : sc.token = emptyToken := by
  induction hs generalizing sc with
  | init key pw => simp [initialState] at hsc
  | record s0 body now _ ih =>
    rcases addScore_state_cases s0 body now with h | ⟨sc0, h⟩
    · exact ih sc (h ▸ hsc)
    · rw [h] at hsc
      rcases List.mem_append.mp hsc with h1 | h1
      · exact ih sc h1
      · rw [List.mem_singleton.mp h1]
  | truncate s0 n r _ heq ih =>
    exact ih sc (truncate_scores_subset s0 n r heq sc hsc)
  | reset s0 pw _ ih =>
    unfold resetScore at hsc
    split_ifs at hsc
    · simp at hsc
    · exact ih sc hsc

set_option maxRecDepth 40000 in
/-- Witness for C8 at a concrete input: the state reached by admitting
one valid submission stores that score with the empty token. -/
theorem stored_scores_have_empty_token_witness :
    (⟨"AAA", 0, 50, emptyToken⟩ : Score).token = emptyToken :=
  stored_scores_have_empty_token
    (addScore (initialState sampleKey "pw") (some ⟨"AAA", 0, 50, getToken sampleKey 5⟩) 5).state
    ⟨"AAA", 0, 50, emptyToken⟩
    (Reachable.record _ _ _ (Reachable.init sampleKey "pw"))
    (by decide)

/-! ## Claim theorem: the ranking order (C1) -/

/-- C1, evaluated on the code: at the spec's tie scenario the store
ranks "BBB" (elapsed 10) above "CCC" (elapsed 5) at equal health 80,
and ranks health 10 above health 80 — `truncateAndGetScores` sorts
ascending by `remaining_health` with ties broken descending by
`elapsed`, the reverse of the claimed order on both keys, so the kept
prefix is the bottom of the leaderboard, not the top. -/
theorem ranking_order_eval :
    truncateAndGetScores
        ⟨[⟨"BBB", 10, 80, emptyToken⟩, ⟨"CCC", 5, 80, emptyToken⟩], [], "pw"⟩ 20 =
      some ([⟨"BBB", 10, 80, emptyToken⟩, ⟨"CCC", 5, 80, emptyToken⟩],
        ⟨[⟨"BBB", 10, 80, emptyToken⟩, ⟨"CCC", 5, 80, emptyToken⟩], [], "pw"⟩) ∧
    truncateAndGetScores
        ⟨[⟨"HHH", 3, 80, emptyToken⟩, ⟨"LLL", 3, 10, emptyToken⟩], [], "pw"⟩ 20 =
      some ([⟨"LLL", 3, 10, emptyToken⟩, ⟨"HHH", 3, 80, emptyToken⟩],
        ⟨[⟨"LLL", 3, 10, emptyToken⟩, ⟨"HHH", 3, 80, emptyToken⟩], [], "pw"⟩) := by
  constructor <;>
    (rw [truncate_eq_of_le _ _ (by norm_num)]
     norm_num [List.mergeSort, List.merge, scoreLe, scoreCmp, cmpOr, cmpCompare])

end Elevate
